import Mathlib

/-!
Verification of the `ctx42/ring` Go package: an injectable execution context
(`Ring`) with copy-on-write environment and shared metadata, an environment
variable splitter (`EnvSplit`), and a thread-safe instrumented test buffer
(`TSBuffer` with `DryBuffer` / `WetBuffer` teardown checks).

Modelling conventions:
* Go strings are modelled as `List Char` (`GoString`); byte slices likewise.
* A Go `map[string]string` (resp. `map[string]α` for metadata) is modelled as
  an association list with unique keys.  Go map iteration order is
  unspecified, so the model fixes an arbitrary representative order; all
  order-sensitive claims are stated up to permutation.
* Go maps are reference values: sharing and in-place mutation are modelled by
  a heap (`Heap`) of allocated map cells addressed by `Nat`, with `Ring`
  holding `Option Nat` pointers (`none` models a Go `nil` map).
* The `error` values returned by buffer writes are modelled as `Option GoErr`
  with `none` standing for Go `nil`.
-/

set_option linter.unusedVariables false

namespace Ctx42

/-- Go strings / byte slices, modelled at the character level. -/
abbrev GoString := List Char

/-- A Go `map[string]α`, modelled as an association list with unique keys. -/
abbrev GoMap (α : Type) := List (GoString × α)

/-- Lookup in a Go map: the value stored at `k`, if present. -/
def mapLookup (m : GoMap α) (k : GoString) : Option α :=
  (m.find? (fun p => p.1 = k)).map (·.2)

/-- Remove every entry whose key is `k` (Go maps hold at most one). -/
def mapRemove (k : GoString) : GoMap α → GoMap α
  | [] => []
  | p :: m => if p.1 = k then mapRemove k m else p :: mapRemove k m

/-- Go map assignment `m[k] = v`: the entry for `k` is replaced (the model
normalizes by putting the assigned entry first; Go maps are unordered). -/
def mapSet (m : GoMap α) (k : GoString) (v : α) : GoMap α :=
  (k, v) :: mapRemove k m

/-- Go `delete(m, k)`. -/
def mapDelete (m : GoMap α) (k : GoString) : GoMap α :=
  mapRemove k m

@[simp] theorem mapLookup_nil (k : GoString) : mapLookup ([] : GoMap α) k = none := rfl

@[simp] theorem mapLookup_cons (p : GoString × α) (m : GoMap α) (k : GoString) :
    mapLookup (p :: m) k = if p.1 = k then some p.2 else mapLookup m k := by
  by_cases h : p.1 = k <;> simp [mapLookup, List.find?_cons, h]

@[simp] theorem mapLookup_mapRemove (m : GoMap α) (k k' : GoString) :
    mapLookup (mapRemove k m) k' = if k = k' then none else mapLookup m k' := by
  induction m with
  | nil => by_cases h : k = k' <;> simp [mapRemove, h]
  | cons p m ih =>
      by_cases hp : p.1 = k
      · rw [mapRemove, if_pos hp, ih]
        by_cases h : k = k'
        · simp [h]
        · have hpk : ¬ p.1 = k' := fun hk => h (hp.symm.trans hk)
          simp [h, hpk]
      · rw [mapRemove, if_neg hp, mapLookup_cons]
        by_cases hk : p.1 = k'
        · have h : ¬ k = k' := fun h => hp (hk.trans h.symm)
          simp [hk, h]
        · simp [hk, ih]

@[simp] theorem mapLookup_mapSet (m : GoMap α) (k k' : GoString) (v : α) :
    mapLookup (mapSet m k v) k' = if k = k' then some v else mapLookup m k' := by
  by_cases h : k = k' <;> simp [mapSet, h]

@[simp] theorem mapLookup_mapDelete (m : GoMap α) (k k' : GoString) :
    mapLookup (mapDelete m k) k' = if k = k' then none else mapLookup m k' := by
  simp [mapDelete]

/-- Model of the loop body split in `EnvSplit`: Go
`parts := strings.SplitN(s, "=", 2)` splits `s` at the first `'='`; the result
is `some (key, value)` when the separator occurs (`len(parts) == 2`). -/
def splitFirstEq : GoString → Option (GoString × GoString)
  | [] => none
  | c :: cs =>
      if c = '=' then some ([], cs)
      else (splitFirstEq cs).map (fun p => (c :: p.1, p.2))

/-- One iteration of the `EnvSplit` loop: split the line on the first `'='`;
skip it when there is no `'='` (which subsumes the empty-line guard) or when
the key portion is empty; otherwise assign into the map. -/
def envSplitStep (m : GoMap GoString) (s : GoString) : GoMap GoString :=
  match splitFirstEq s with
  | some kv => if kv.1 = [] then m else mapSet m kv.1 kv.2
  | none => m

/-- EnvSplit parses `os.Environ`-style results into a key-value map: each
line is split on the first `'='`; lines that are empty, have no `'='`, or
have an empty key portion are skipped; later lines overwrite earlier keys. -/
def EnvSplit (env : List GoString) : GoMap GoString :=
  env.foldl envSplitStep []

/-- Env.EnvAll serializes the store back to `"key=value"` entries (the Go
method returns `nil` for an empty store; the model returns `[]`). -/
def Env.EnvAll (m : GoMap GoString) : List GoString :=
  m.map (fun p => p.1 ++ '=' :: p.2)

/-- Spec-side: the key portion of a line, the text before the first `'='`. -/
def specKey (s : GoString) : GoString := s.takeWhile (fun c => ! decide (c = '='))

/-- Spec-side: the value portion of a line, the text after the first `'='`. -/
def specVal (s : GoString) : GoString :=
  (s.dropWhile (fun c => ! decide (c = '='))).tail

/-- Spec-side: a line is kept by the parser when it contains a `'='` and its
key portion is non-empty. -/
def specValidLine (s : GoString) : Prop := '=' ∈ s ∧ specKey s ≠ []

instance (s : GoString) : Decidable (specValidLine s) := by
  unfold specValidLine; infer_instance

/-- Spec-side: the value assigned to `key` by a sequence of lines under
last-write-wins, or `none` when no kept line carries that key. -/
def specLastValue (lines : List GoString) (key : GoString) : Option GoString :=
  (lines.reverse.find? (fun s => decide (specValidLine s) && specKey s = key)).map specVal

/-- Spec-side: deduplicate lines by key, keeping only the last occurrence of
each key (last-write-wins). -/
def specDedupLWW : List GoString → List GoString
  | [] => []
  | l :: ls =>
      if ls.any (fun s => specKey s = specKey l) then specDedupLWW ls
      else l :: specDedupLWW ls

/-- Env.EnvGetAll serializes the store to `"key=value"` entries (the value
receiver variant; identical contents to `Env.EnvAll`). -/
def Env.EnvGetAll (m : GoMap GoString) : List GoString :=
  m.map (fun p => p.1 ++ '=' :: p.2)

/-- Env.EnvSet sets a variable: `env.e[key] = value`. -/
def Env.EnvSet (m : GoMap GoString) (key value : GoString) : GoMap GoString :=
  mapSet m key value

/-- Env.EnvUnset deletes a variable: `delete(env.e, key)`. -/
def Env.EnvUnset (m : GoMap GoString) (key : GoString) : GoMap GoString :=
  mapDelete m key

/-- NewEnv builds the contents of the freshly allocated map: a `nil` slice
yields an empty map and `EnvSplit [] = []`, so both source branches reduce to
`EnvSplit`.  The allocation itself is made explicit at each use site. -/
def NewEnv (env : List GoString) : GoMap GoString := EnvSplit env

/-- Heap of allocated Go map cells: environment stores (`map[string]string`)
and metadata stores (`map[string]any`, value type `α`).  Go map values are
references; a `Nat` index models the reference. -/
structure Heap (α : Type) where
  envCells : List (GoMap GoString)
  metaCells : List (GoMap α)

/-- Allocate a fresh environment store. -/
def Heap.allocEnv (h : Heap α) (cell : GoMap GoString) : Heap α × Nat :=
  (⟨h.envCells ++ [cell], h.metaCells⟩, h.envCells.length)

/-- Allocate a fresh metadata store. -/
def Heap.allocMeta (h : Heap α) (cell : GoMap α) : Heap α × Nat :=
  (⟨h.envCells, h.metaCells ++ [cell]⟩, h.metaCells.length)

/-- Dereference an environment store pointer; a `nil` map (`none`) reads as
empty, matching Go iteration/len over a nil map. -/
def Heap.envCell (h : Heap α) (p : Option Nat) : GoMap GoString :=
  match p with
  | none => []
  | some i => (h.envCells.get? i).getD []

/-- Dereference a metadata store pointer; a `nil` map reads as empty. -/
def Heap.metaCell (h : Heap α) (p : Option Nat) : GoMap α :=
  match p with
  | none => []
  | some i => (h.metaCells.get? i).getD []

/-- Apply `f` to the cell at index `i`, in place. -/
def listModify (f : β → β) : List β → Nat → List β
  | [], _ => []
  | x :: xs, 0 => f x :: xs
  | x :: xs, n + 1 => x :: listModify f xs n

theorem listModify_get? (f : β → β) (l : List β) (i j : Nat) :
    (listModify f l i).get? j = if i = j then (l.get? j).map f else l.get? j := by
  induction l generalizing i j with
  | nil => cases i <;> cases j <;> simp [listModify]
  | cons x xs ih =>
      cases i with
      | zero => cases j <;> simp [listModify]
      | succ n =>
          cases j with
          | zero => simp [listModify]
          | succ jm => simpa [listModify] using ih n jm

/-- Ring is the program execution context: an environment store pointer (the
embedded `hidEnv.e` map), a metadata map pointer (`m`), program arguments and
program name.  The standard I/O stream handles and the clock function are
opaque ambient resources never inspected by any claim and are omitted from
the model. -/
structure Ring (α : Type) where
  env : Option Nat
  m : Option Nat
  args : List GoString
  name : GoString

/-- Ring.EnvGetAll: serialization of the ring's environment store through the
embedded `Env`. -/
def Ring.EnvGetAll (h : Heap α) (r : Ring α) : List GoString :=
  Env.EnvGetAll (h.envCell r.env)

/-- Ring.WithArgs returns a new Ring with the given program arguments. -/
def Ring.WithArgs (r : Ring α) (args : List GoString) : Ring α :=
  { r with args := args }

/-- Ring.WithName returns a new Ring with the given program name. -/
def Ring.WithName (r : Ring α) (name : GoString) : Ring α :=
  { r with name := name }

/-- Ring.EnvSet: the source clones the current listing into a fresh store via
`NewEnv(slices.Clone(rng.EnvGetAll()))` and then mutates the fresh store with
`EnvSet`; the fresh cell's final contents are computed before allocation. -/
def Ring.EnvSet (h : Heap α) (r : Ring α) (key value : GoString) :
    Heap α × Ring α :=
  let cell := Env.EnvSet (NewEnv (Ring.EnvGetAll h r)) key value
  let hi := h.allocEnv cell
  (hi.1, { r with env := some hi.2 })

/-- Ring.EnvSetBulk: appends `env` to a clone of the current listing and
parses the result into a fresh store. -/
def Ring.EnvSetBulk (h : Heap α) (r : Ring α) (env : List GoString) :
    Heap α × Ring α :=
  let cell := NewEnv (Ring.EnvGetAll h r ++ env)
  let hi := h.allocEnv cell
  (hi.1, { r with env := some hi.2 })

/-- Ring.EnvUnset: clones the current listing into a fresh store and deletes
`key` from the fresh store. -/
def Ring.EnvUnset (h : Heap α) (r : Ring α) (key : GoString) :
    Heap α × Ring α :=
  let cell := Env.EnvUnset (NewEnv (Ring.EnvGetAll h r)) key
  let hi := h.allocEnv cell
  (hi.1, { r with env := some hi.2 })

/-- Ring.MetaSet mutates the shared metadata map in place (`rng.m[key] =
value`); assignment to a Go `nil` map panics, modelled as `none`. -/
def Ring.MetaSet (h : Heap α) (r : Ring α) (key : GoString) (value : α) :
    Option (Heap α × Ring α) :=
  match r.m with
  | none => none
  | some i =>
      some ({ h with metaCells := listModify (fun c => mapSet c key value) h.metaCells i }, r)

/-- Ring.MetaDelete mutates the shared metadata map in place
(`delete(rng.m, key)`); deleting from a Go `nil` map is a no-op. -/
def Ring.MetaDelete (h : Heap α) (r : Ring α) (key : GoString) :
    Heap α × Ring α :=
  match r.m with
  | none => (h, r)
  | some i =>
      ({ h with metaCells := listModify (fun c => mapDelete c key) h.metaCells i }, r)

/-- Ring.MetaAll returns a clone of the metadata map; the clone has the same
contents as the shared cell. -/
def Ring.MetaAll (h : Heap α) (r : Ring α) : GoMap α :=
  h.metaCell r.m

/-- Ring.IsZero from the refactored snapshot: the environment is checked by
entry count (`len(rng.hidEnv.e) > 0`), the metadata by nil-or-empty, then
args and name. -/
def Ring.IsZero (h : Heap α) (r : Ring α) : Bool :=
  if 0 < (h.envCell r.env).length then false
  else
    (decide (r.m = none) || decide ((h.metaCell r.m).length = 0)) &&
      decide (r.args = []) && decide (r.name = [])

/-- Ring.IsZero from the earlier snapshot: the environment is checked with
`rng.EnvIsNil()` (no store ever attached) instead of the entry count. -/
def Ring.IsZeroPrior (h : Heap α) (r : Ring α) : Bool :=
  decide (r.env = none) &&
    (decide (r.m = none) || decide ((h.metaCell r.m).length = 0)) &&
    decide (r.args = []) && decide (r.name = [])

/-- Construction options for `New` (the source `Option` closures; `WithClock`
only touches the omitted clock field and is not modelled).  `WithMeta`
receives a caller-supplied map reference, possibly `nil`. -/
inductive RingOption (α : Type) where
  | withEnv (env : List GoString)
  | withArgs (args : List GoString)
  | withMeta (m : Option Nat)

/-- Apply one construction option; `WithEnv` allocates a fresh store via
`NewEnv`. -/
def applyOption (h : Heap α) (r : Ring α) : RingOption α → Heap α × Ring α
  | .withEnv env =>
      let hi := h.allocEnv (NewEnv env)
      (hi.1, { r with env := some hi.2 })
  | .withArgs args => (h, { r with args := args })
  | .withMeta m => (h, { r with m := m })

/-- defaultRing: nil environment and metadata, name from `os.Args[0]`, args
from `os.Args[1:]` (the ambient values are passed as parameters). -/
def defaultRing (osName : GoString) (osArgs : List GoString) : Ring α :=
  { env := none, m := none, args := osArgs, name := osName }

/-- The `if rng.hidEnv.e == nil` block of `New`: attach a store parsed from
`os.Environ` when no environment store was configured. -/
def attachEnv (osEnviron : List GoString) (s : Heap α × Ring α) : Heap α × Ring α :=
  if s.2.env = none then
    ((s.1.allocEnv (NewEnv osEnviron)).1,
      { s.2 with env := some (s.1.allocEnv (NewEnv osEnviron)).2 })
  else s

/-- The `if rng.m == nil` block of `New`: allocate an empty metadata map when
none was configured. -/
def attachMeta (s : Heap α × Ring α) : Heap α × Ring α :=
  if s.2.m = none then
    ((s.1.allocMeta ([] : GoMap α)).1,
      { s.2 with m := some (s.1.allocMeta ([] : GoMap α)).2 })
  else s

/-- New applies the options to `defaultRing`, then attaches `os.Environ` when
no environment store was configured and allocates an empty metadata map when
none was configured. -/
def New (osName : GoString) (osArgs osEnviron : List GoString) (h : Heap α)
    (opts : List (RingOption α)) : Heap α × Ring α :=
  attachMeta (attachEnv osEnviron
    (opts.foldl (fun s o => applyOption s.1 s.2 o) (h, defaultRing osName osArgs)))

/-- The copy-on-write mutators named by the frame claim. -/
inductive Mutator where
  | withArgs (args : List GoString)
  | withName (name : GoString)
  | envSet (key value : GoString)
  | envUnset (key : GoString)
  | envSetBulk (env : List GoString)

/-- Apply one mutator to a ring in a heap. -/
def applyMutator (h : Heap α) (r : Ring α) : Mutator → Heap α × Ring α
  | .withArgs a => (h, Ring.WithArgs r a)
  | .withName n => (h, Ring.WithName r n)
  | .envSet k v => Ring.EnvSet h r k v
  | .envUnset k => Ring.EnvUnset h r k
  | .envSetBulk e => Ring.EnvSetBulk h r e

/-- Everything the frame claim lists as observable through a context: its
environment listing, its args and its name. -/
def observe (h : Heap α) (r : Ring α) : List GoString × List GoString × GoString :=
  (Ring.EnvGetAll h r, r.args, r.name)

/-- The ring's environment pointer is a valid heap reference (or nil). -/
def envValid (h : Heap α) (r : Ring α) : Prop :=
  r.env.all (fun i => decide (i < h.envCells.length)) = true

instance (h : Heap α) (r : Ring α) : Decidable (envValid h r) := by
  unfold envValid; infer_instance

/-- Go error values relevant to the modelled API; a Go `error` result is
`Option GoErr` with `none` for `nil`. -/
inductive GoErr where
  | errNoFsAccess
deriving DecidableEq

/-- Buffer kind tag `TSBuffDry`. -/
def TSBuffDry : GoString := "dry".data

/-- Buffer kind tag `TSBuffWet`. -/
def TSBuffWet : GoString := "wet".data

/-- Buffer kind tag `TSBuffDefault`. -/
def TSBuffDefault : GoString := "default".data

/-- TSBuffer: thread-safe instrumented writer.  The mutex only guards the
interleaving of operations; the sequential state is its name, kind, byte
accumulator, checks-enabled flag, and the write/read counters. -/
structure TSBuffer where
  name : GoString
  kind : GoString
  buf : GoString
  check : Bool
  wc : Nat
  rc : Nat
deriving DecidableEq

/-- Model of Go `strings.TrimSpace` (ASCII whitespace). -/
def goIsSpace (c : Char) : Bool :=
  c = ' ' || c = '\t' || c = '\n' || c = '\r' ||
    c = Char.ofNat 11 || c = Char.ofNat 12

/-- Model of Go `strings.TrimSpace`. -/
def trimSpace (s : GoString) : GoString :=
  ((s.dropWhile goIsSpace).reverse.dropWhile goIsSpace).reverse

/-- NewTSBuffer: kind `default`, empty accumulator, checks enabled, zero
counters; a provided name is trimmed and suffixed with a space. -/
def NewTSBuffer (names : List GoString) : TSBuffer :=
  let tsb : TSBuffer :=
    { name := [], kind := TSBuffDefault, buf := [], check := true, wc := 0, rc := 0 }
  match names with
  | [] => tsb
  | n :: _ => { tsb with name := trimSpace n ++ [' '] }

/-- TSBuffer.Write: increments the write counter and appends; the underlying
`bytes.Buffer.Write` returns `(len(p), nil)`. -/
def TSBuffer.Write (tsb : TSBuffer) (p : GoString) : TSBuffer × Nat × Option GoErr :=
  ({ tsb with wc := tsb.wc + 1, buf := tsb.buf ++ p }, p.length, none)

/-- TSBuffer.WriteString: increments the write counter and appends; the
underlying `bytes.Buffer.WriteString` returns `(len(s), nil)`. -/
def TSBuffer.WriteString (tsb : TSBuffer) (s : GoString) : TSBuffer × Nat × Option GoErr :=
  ({ tsb with wc := tsb.wc + 1, buf := tsb.buf ++ s }, s.length, none)

/-- TSBuffer.string: returns the accumulated data, bumping the read counter
only when `inc` is true (the internal non-counting read path passes false). -/
def TSBuffer.string (tsb : TSBuffer) (inc : Bool) : TSBuffer × GoString :=
  (if inc then { tsb with rc := tsb.rc + 1 } else tsb, tsb.buf)

/-- TSBuffer.String: the canonical read accessor, `string(true)`. -/
def TSBuffer.String (tsb : TSBuffer) : TSBuffer × GoString :=
  tsb.string true

/-- TSBuffer.Reset: clears the accumulator and zeroes both counters. -/
def TSBuffer.Reset (tsb : TSBuffer) : TSBuffer :=
  { tsb with wc := 0, rc := 0, buf := [] }

/-- TSBuffer.SkipChecks: permanently disables the teardown checks. -/
def TSBuffer.SkipChecks (tsb : TSBuffer) : TSBuffer :=
  { tsb with check := false }

/-- DryBuffer: a fresh buffer of kind `dry`; the teardown check it registers
with the test handle is modelled by `dryCleanup`. -/
def DryBuffer (names : List GoString) : TSBuffer :=
  { NewTSBuffer names with kind := TSBuffDry }

/-- WetBuffer: a fresh buffer of kind `wet`; the teardown check it registers
with the test handle is modelled by `wetCleanup`. -/
def WetBuffer (names : List GoString) : TSBuffer :=
  { NewTSBuffer names with kind := TSBuffWet }

/-- One hexadecimal digit, for the quoting model. -/
def hexDigit (n : Nat) : Char :=
  if n < 10 then Char.ofNat (48 + n) else Char.ofNat (87 + n)

/-- Model of Go `%q` escaping for one character: printable ASCII other than
quote and backslash stays itself; common escapes otherwise. -/
def goQuoteChar (c : Char) : GoString :=
  if c = '"' then ['\\', '"']
  else if c = '\\' then ['\\', '\\']
  else if 32 ≤ c.toNat ∧ c.toNat < 127 then [c]
  else if c = '\n' then ['\\', 'n']
  else if c = '\t' then ['\\', 't']
  else if c = '\r' then ['\\', 'r']
  else
    ['\\', 'u', hexDigit (c.toNat / 4096 % 16), hexDigit (c.toNat / 256 % 16),
      hexDigit (c.toNat / 16 % 16), hexDigit (c.toNat % 16)]

/-- Model of Go `%q`: the quoted form of a string. -/
def goQuote (s : GoString) : GoString :=
  '"' :: (s.map goQuoteChar).flatten ++ ['"']

/-- A character that `%q` renders as itself. -/
def plainChar (c : Char) : Prop :=
  32 ≤ c.toNat ∧ c.toNat < 127 ∧ c ≠ '"' ∧ c ≠ '\\'

instance (c : Char) : Decidable (plainChar c) := by
  unfold plainChar; infer_instance

/-- The dry-buffer failure message
`"expected %sbuffer to be empty:\n\twant: \n\thave: %q"`. -/
def dryFailMsg (name out : GoString) : GoString :=
  "expected ".data ++ name ++ "buffer to be empty:\n\twant: \n\thave: ".data ++ goQuote out

/-- The wet-buffer failure message `"expected %sbuffer not to be empty"`. -/
def wetEmptyMsg (name : GoString) : GoString :=
  "expected ".data ++ name ++ "buffer not to be empty".data

/-- The wet-buffer failure message
`"expected %sbuffer to be examined with String or Buffer methods"`. -/
def wetExaminedMsg (name : GoString) : GoString :=
  "expected ".data ++ name ++ "buffer to be examined with String or Buffer methods".data

/-- The teardown check `DryBuffer` registers: skipped when checks are
disabled; otherwise reads through the non-counting path and fails when
anything was written, quoting the contents. -/
def dryCleanup (tsb : TSBuffer) : TSBuffer × List GoString :=
  if tsb.check = false then (tsb, [])
  else
    let so := tsb.string false
    if so.2 = [] then (so.1, [])
    else (so.1, [dryFailMsg tsb.name so.2])

/-- The teardown check `WetBuffer` registers: skipped when checks are
disabled; otherwise fails when nothing was written, and else fails when the
contents were never examined (read counter zero). -/
def wetCleanup (tsb : TSBuffer) : TSBuffer × List GoString :=
  if tsb.check = false then (tsb, [])
  else
    let so := tsb.string false
    if so.2 = [] then (so.1, [wetEmptyMsg tsb.name])
    else if tsb.rc = 0 then (so.1, [wetExaminedMsg tsb.name])
    else (so.1, [])

/-- The public buffer operations a test may perform between creation and
teardown. -/
inductive BufOp where
  | write (p : GoString)
  | writeString (s : GoString)
  | readString
  | reset
  | skipChecks
deriving DecidableEq

/-- Run one buffer operation. -/
def applyBufOp (tsb : TSBuffer) : BufOp → TSBuffer
  | .write p => (tsb.Write p).1
  | .writeString s => (tsb.WriteString s).1
  | .readString => tsb.String.1
  | .reset => tsb.Reset
  | .skipChecks => tsb.SkipChecks

/-- Run a sequence of buffer operations. -/
def applyBufOps (tsb : TSBuffer) (ops : List BufOp) : TSBuffer :=
  ops.foldl applyBufOp tsb

/-- Modelled from the spec: the filesystem capability (`WithFS` option,
`Ring.FS` accessor and `ErrNoFsAccess` sentinel) belongs to a revision whose
implementation file is missing from the sources; only its tests and the
README mention it.  The ring's `fs` field holds a possibly-nil filesystem
handle. -/
structure RingFS where
  fs : Option Nat
deriving DecidableEq

/-- Modelled from the spec: the distinct, checkable sentinel error returned
when no filesystem access was configured. -/
def ErrNoFsAccess : GoErr := GoErr.errNoFsAccess

/-- Modelled from the spec: `WithFS` configures the ring with the given
filesystem. -/
def WithFS (f : Nat) (r : RingFS) : RingFS :=
  { r with fs := some f }

/-- Modelled from the spec: `Ring.FS` returns the configured filesystem, or
no filesystem together with `ErrNoFsAccess` when none was configured. -/
def RingFS.FS (r : RingFS) : Option Nat × Option GoErr :=
  match r.fs with
  | none => (none, some ErrNoFsAccess)
  | some f => (some f, none)

/-! ### Theorems -/

/-- C3: `TSBuffer.Write` and `TSBuffer.WriteString` return the number of
bytes appended together with a nil error, increment the write counter by
exactly one per call regardless of the number of bytes carried, and leave
the read counter unchanged. -/
theorem tsbuffer_write_counts (tsb : TSBuffer) (p s : GoString) :
    (tsb.Write p).2.1 = p.length ∧ (tsb.Write p).2.2 = none ∧
    (tsb.Write p).1.buf = tsb.buf ++ p ∧
    (tsb.Write p).1.wc = tsb.wc + 1 ∧ (tsb.Write p).1.rc = tsb.rc ∧
    (tsb.WriteString s).2.1 = s.length ∧ (tsb.WriteString s).2.2 = none ∧
    (tsb.WriteString s).1.buf = tsb.buf ++ s ∧
    (tsb.WriteString s).1.wc = tsb.wc + 1 ∧ (tsb.WriteString s).1.rc = tsb.rc :=
  ⟨rfl, rfl, rfl, rfl, rfl, rfl, rfl, rfl, rfl, rfl⟩

/-- C9: accessing the filesystem of a ring on which none was configured
yields no filesystem and the distinct checkable error value `ErrNoFsAccess`,
not a silent default; after `WithFS` the accessor returns the configured
filesystem and a nil error. -/
theorem ring_fs_access (r : RingFS) :
    (RingFS.FS { fs := none } = (none, some ErrNoFsAccess)) ∧
    (∀ f, RingFS.FS (WithFS f r) = (some f, none)) :=
  ⟨rfl, fun f => rfl⟩

/-- Concrete heap and ring for the `IsZero` counterexample: one allocated
but empty environment store and nothing else. -/
def isZeroCexHeap : Heap Nat := ⟨[[]], []⟩

/-- The ring whose environment store is attached but holds zero entries. -/
def isZeroCexRing : Ring Nat := ⟨some 0, none, [], []⟩

/-- C8, counterexample: at a ring whose environment store is attached but
holds zero entries (everything else empty), `Ring.IsZero` returns `true`,
while the claim demands `false` for any ring with an attached environment
store; the claimed biconditional fails at this input. -/
theorem isZero_claim_counterexample :
    ¬ (Ring.IsZero isZeroCexHeap isZeroCexRing = true ↔
        (isZeroCexRing.env = none ∧
          (isZeroCexRing.m = none ∨ (isZeroCexHeap.metaCell isZeroCexRing.m).length = 0) ∧
          isZeroCexRing.args = [] ∧ isZeroCexRing.name = [])) := by
  decide

/-- C8, amended: `Ring.IsZero` returns `true` iff the ring's environment
store holds zero entries (whether or not a store was ever attached), its
metadata store is absent or has zero entries, its args list is empty and its
name is empty. -/
theorem isZero_characterization {α : Type} (h : Heap α) (r : Ring α) :
    Ring.IsZero h r = true ↔
      ((h.envCell r.env).length = 0 ∧
        (r.m = none ∨ (h.metaCell r.m).length = 0) ∧
        r.args = [] ∧ r.name = []) := by
  unfold Ring.IsZero
  by_cases he : 0 < (h.envCell r.env).length
  · simp only [if_pos he]
    constructor
    · intro hx; cases hx
    · intro hx; omega
  · simp only [if_neg he, Bool.and_eq_true, Bool.or_eq_true, decide_eq_true_eq]
    constructor
    · rintro ⟨⟨hm, ha⟩, hn⟩; exact ⟨by omega, hm, ha, hn⟩
    · rintro ⟨_, hm, ha, hn⟩; exact ⟨⟨hm, ha⟩, hn⟩

/-- The earlier snapshot of `IsZero` (with `rng.EnvIsNil()`) satisfies the
claimed biconditional verbatim: true iff no environment store was ever
attached, the metadata store is absent or empty, args and name are empty. -/
theorem isZeroPrior_characterization {α : Type} (h : Heap α) (r : Ring α) :
    Ring.IsZeroPrior h r = true ↔
      (r.env = none ∧
        (r.m = none ∨ (h.metaCell r.m).length = 0) ∧
        r.args = [] ∧ r.name = []) := by
  unfold Ring.IsZeroPrior
  simp only [Bool.and_eq_true, Bool.or_eq_true, decide_eq_true_eq]
  constructor
  · rintro ⟨⟨⟨he, hm⟩, ha⟩, hn⟩; exact ⟨he, hm, ha, hn⟩
  · rintro ⟨he, hm, ha, hn⟩; exact ⟨⟨⟨he, hm⟩, ha⟩, hn⟩

theorem envCell_allocEnv {α : Type} (h : Heap α) (cell : GoMap GoString)
    (p : Option Nat) (hv : p.all (fun i => decide (i < h.envCells.length)) = true) :
    (h.allocEnv cell).1.envCell p = h.envCell p := by
  cases p with
  | none => rfl
  | some i =>
      have hi : i < h.envCells.length := by simpa using hv
      show ((h.envCells ++ [cell]).get? i).getD [] = (h.envCells.get? i).getD []
      rw [List.get?_eq_getElem?, List.get?_eq_getElem?, List.getElem?_append_left hi]

theorem metaCell_modify {α : Type} (h : Heap α) (f : GoMap α → GoMap α)
    (i : Nat) (cell : GoMap α) (hcell : h.metaCells.get? i = some cell) :
    Heap.metaCell { h with metaCells := listModify f h.metaCells i } (some i) = f cell := by
  show ((listModify f h.metaCells i).get? i).getD [] = f cell
  rw [listModify_get?, if_pos rfl, hcell]
  rfl

/-- C1: every copy-on-write mutator among `WithArgs`, `WithName`, `EnvSet`,
`EnvUnset` and `EnvSetBulk` leaves every value observable through the
original ring unchanged — its environment listing, its args and its name
read identically before and after — and never touches any metadata store,
for any heap, hence also when the ring shares stores with ancestors. -/
theorem ring_mutators_preserve_observables {α : Type} (h : Heap α) (c : Ring α)
    (mu : Mutator) (hv : envValid h c) :
    observe (applyMutator h c mu).1 c = observe h c ∧
    (applyMutator h c mu).1.metaCells = h.metaCells := by
  cases mu with
  | withArgs a => exact ⟨rfl, rfl⟩
  | withName n => exact ⟨rfl, rfl⟩
  | envSet k v =>
      refine ⟨?_, rfl⟩
      simp [applyMutator, Ring.EnvSet, observe, Ring.EnvGetAll,
        envCell_allocEnv h _ c.env hv]
  | envUnset k =>
      refine ⟨?_, rfl⟩
      simp [applyMutator, Ring.EnvUnset, observe, Ring.EnvGetAll,
        envCell_allocEnv h _ c.env hv]
  | envSetBulk e =>
      refine ⟨?_, rfl⟩
      simp [applyMutator, Ring.EnvSetBulk, observe, Ring.EnvGetAll,
        envCell_allocEnv h _ c.env hv]

/-- Witness for C1: a concrete heap with one environment store and one
metadata store shared by a ring; `EnvSet` leaves the ring's observables
untouched. -/
theorem ring_mutators_preserve_observables_witness :
    envValid (⟨[[(['A'], ['1'])]], [[]]⟩ : Heap Nat) ⟨some 0, some 0, [['x']], ['n']⟩ ∧
    (observe
        (applyMutator (⟨[[(['A'], ['1'])]], [[]]⟩ : Heap Nat)
          ⟨some 0, some 0, [['x']], ['n']⟩ (Mutator.envSet ['B'] ['2'])).1
        ⟨some 0, some 0, [['x']], ['n']⟩ =
      observe (⟨[[(['A'], ['1'])]], [[]]⟩ : Heap Nat) ⟨some 0, some 0, [['x']], ['n']⟩ ∧
      (applyMutator (⟨[[(['A'], ['1'])]], [[]]⟩ : Heap Nat)
          ⟨some 0, some 0, [['x']], ['n']⟩ (Mutator.envSet ['B'] ['2'])).1.metaCells =
        (⟨[[(['A'], ['1'])]], [[]]⟩ : Heap Nat).metaCells) :=
  ⟨by decide,
    ring_mutators_preserve_observables (⟨[[(['A'], ['1'])]], [[]]⟩ : Heap Nat)
      ⟨some 0, some 0, [['x']], ['n']⟩ (Mutator.envSet ['B'] ['2']) (by decide)⟩

/-- C2: when rings `c` and `d` share the same metadata store (as they do
when `d` is derived from `c` by mutators that never replace that store —
the final conjunct shows none of the copy-on-write mutators does),
`MetaSet` on `c` succeeds, returns `c` itself, and makes the pair
observable through both `c` and `d`; `MetaDelete` on `c` removes the key as
observed through `d`. -/
theorem ring_meta_mutation_shared {α : Type} (h : Heap α) (c d : Ring α)
    (i : Nat) (k : GoString) (v : α) (hc : c.m = some i) (hd : d.m = some i)
    (hi : i < h.metaCells.length) :
    (∃ h', Ring.MetaSet h c k v = some (h', c) ∧
      mapLookup (Ring.MetaAll h' d) k = some v ∧
      mapLookup (Ring.MetaAll h' c) k = some v) ∧
    mapLookup (Ring.MetaAll (Ring.MetaDelete h c k).1 d) k = none ∧
    (∀ mu, ((applyMutator h c mu).2).m = c.m) := by
  obtain ⟨cell, hcell⟩ : ∃ cell, h.metaCells.get? i = some cell := by
    cases hg : h.metaCells.get? i with
    | none => exact absurd (List.get?_eq_none.mp hg) (by omega)
    | some cell => exact ⟨cell, rfl⟩
  refine
    ⟨⟨{ h with metaCells := listModify (fun cc => mapSet cc k v) h.metaCells i },
      ?_, ?_, ?_⟩, ?_, ?_⟩
  · simp [Ring.MetaSet, hc]
  · simp only [Ring.MetaAll, hd, metaCell_modify h _ i cell hcell]
    simp
  · simp only [Ring.MetaAll, hc, metaCell_modify h _ i cell hcell]
    simp
  · simp only [Ring.MetaDelete, hc, Ring.MetaAll, hd,
      metaCell_modify h _ i cell hcell]
    simp
  · intro mu
    cases mu <;> rfl

/-- Witness for C2: two distinct rings sharing metadata store 0 in a
concrete heap; setting and deleting through one is observed through the
other. -/
theorem ring_meta_mutation_shared_witness :
    ((⟨some 0, some 0, [], []⟩ : Ring Nat).m = some 0 ∧
      (⟨none, some 0, [['d']], ['d']⟩ : Ring Nat).m = some 0 ∧
      0 < (⟨[], [[(['A'], 7)]]⟩ : Heap Nat).metaCells.length) ∧
    ((∃ h', Ring.MetaSet (⟨[], [[(['A'], 7)]]⟩ : Heap Nat) ⟨some 0, some 0, [], []⟩ ['B'] 9 =
        some (h', ⟨some 0, some 0, [], []⟩) ∧
      mapLookup (Ring.MetaAll h' ⟨none, some 0, [['d']], ['d']⟩) ['B'] = some 9 ∧
      mapLookup (Ring.MetaAll h' ⟨some 0, some 0, [], []⟩) ['B'] = some 9) ∧
    mapLookup
      (Ring.MetaAll
        (Ring.MetaDelete (⟨[], [[(['A'], 7)]]⟩ : Heap Nat) ⟨some 0, some 0, [], []⟩ ['B']).1
        ⟨none, some 0, [['d']], ['d']⟩) ['B'] = none ∧
    (∀ mu, ((applyMutator (⟨[], [[(['A'], 7)]]⟩ : Heap Nat) ⟨some 0, some 0, [], []⟩ mu).2).m =
      (⟨some 0, some 0, [], []⟩ : Ring Nat).m)) :=
  ⟨⟨rfl, rfl, by decide⟩,
    ring_meta_mutation_shared (⟨[], [[(['A'], 7)]]⟩ : Heap Nat)
      ⟨some 0, some 0, [], []⟩ ⟨none, some 0, [['d']], ['d']⟩ 0 ['B'] 9 rfl rfl (by decide)⟩

theorem applyBufOps_check (tsb : TSBuffer) (ops : List BufOp) :
    (applyBufOps tsb ops).check = false ↔
      (tsb.check = false ∨ BufOp.skipChecks ∈ ops) := by
  induction ops generalizing tsb with
  | nil => simp [applyBufOps]
  | cons o ops ih =>
      cases o with
      | write p =>
          simp only [applyBufOps, List.foldl_cons] at *
          simp [applyBufOp, TSBuffer.Write, ih, List.mem_cons]
      | writeString s =>
          simp only [applyBufOps, List.foldl_cons] at *
          simp [applyBufOp, TSBuffer.WriteString, ih, List.mem_cons]
      | readString =>
          simp only [applyBufOps, List.foldl_cons] at *
          simp [applyBufOp, TSBuffer.String, TSBuffer.string, ih, List.mem_cons]
      | reset =>
          simp only [applyBufOps, List.foldl_cons] at *
          simp [applyBufOp, TSBuffer.Reset, ih, List.mem_cons]
      | skipChecks =>
          simp only [applyBufOps, List.foldl_cons] at *
          simp [applyBufOp, TSBuffer.SkipChecks, ih, List.mem_cons]

theorem wetEmptyMsg_ne_wetExaminedMsg (name : GoString) :
    wetEmptyMsg name ≠ wetExaminedMsg name := by
  intro hEq
  have hl := congrArg List.length hEq
  simp only [wetEmptyMsg, wetExaminedMsg, List.length_append, List.length_cons,
    List.length_nil] at hl
  omega

/-- C4: for a buffer created by `WetBuffer` and then driven by any sequence
of operations, the teardown check reports the not-empty failure exactly when
checks are enabled and the accumulator is empty, reports the not-examined
failure exactly when checks are enabled, the accumulator is non-empty and
the read counter is zero, and it reports nothing at all exactly when checks
pass or `SkipChecks` ran; checks are disabled exactly when `SkipChecks` is
among the operations. -/
theorem wet_buffer_teardown (names : List GoString) (ops : List BufOp) :
    ((wetCleanup (applyBufOps (WetBuffer names) ops)).2 = [] ↔
      ((applyBufOps (WetBuffer names) ops).check = false ∨
        ((applyBufOps (WetBuffer names) ops).buf ≠ [] ∧
          (applyBufOps (WetBuffer names) ops).rc ≠ 0))) ∧
    (wetEmptyMsg (applyBufOps (WetBuffer names) ops).name ∈
        (wetCleanup (applyBufOps (WetBuffer names) ops)).2 ↔
      ((applyBufOps (WetBuffer names) ops).check = true ∧
        (applyBufOps (WetBuffer names) ops).buf = [])) ∧
    (wetExaminedMsg (applyBufOps (WetBuffer names) ops).name ∈
        (wetCleanup (applyBufOps (WetBuffer names) ops)).2 ↔
      ((applyBufOps (WetBuffer names) ops).check = true ∧
        (applyBufOps (WetBuffer names) ops).buf ≠ [] ∧
        (applyBufOps (WetBuffer names) ops).rc = 0)) ∧
    ((applyBufOps (WetBuffer names) ops).check = false ↔ BufOp.skipChecks ∈ ops) := by
  set tsb := applyBufOps (WetBuffer names) ops with htsb
  have hflag : tsb.check = false ↔ BufOp.skipChecks ∈ ops := by
    rw [htsb, applyBufOps_check]
    simp [WetBuffer, NewTSBuffer]
    cases names <;> simp
  refine ⟨?_, ?_, ?_, hflag⟩ <;>
    · unfold wetCleanup TSBuffer.string
      rcases hc : tsb.check with _ | _
      · simp [hc]
      · by_cases hb : tsb.buf = []
        · simp [hc, hb, wetEmptyMsg_ne_wetExaminedMsg tsb.name,
            Ne.symm (wetEmptyMsg_ne_wetExaminedMsg tsb.name)]
        · by_cases hr : tsb.rc = 0
          · simp [hc, hb, hr, wetEmptyMsg_ne_wetExaminedMsg tsb.name,
              Ne.symm (wetEmptyMsg_ne_wetExaminedMsg tsb.name)]
          · simp [hc, hb, hr]

/-- Witness for C4: a wet buffer written but never examined reports the
not-examined failure. -/
theorem wet_buffer_teardown_witness :
    wetExaminedMsg (applyBufOps (WetBuffer []) [BufOp.writeString ['a']]).name ∈
      (wetCleanup (applyBufOps (WetBuffer []) [BufOp.writeString ['a']])).2 :=
  (wet_buffer_teardown [] [BufOp.writeString ['a']]).2.2.1.mpr
    ⟨by decide, by decide, by decide⟩

theorem goQuoteChars_plain (s : GoString) (hp : ∀ c ∈ s, plainChar c) :
    (s.map goQuoteChar).flatten = s := by
  induction s with
  | nil => rfl
  | cons c cs ih =>
      obtain ⟨h1, h2, h3, h4⟩ := hp c (List.mem_cons_self c cs)
      have hrest : ∀ x ∈ cs, plainChar x := fun x hx => hp x (List.mem_cons_of_mem c hx)
      simp only [List.map_cons, List.flatten_cons, goQuoteChar, if_neg h3, if_neg h4,
        if_pos (⟨h1, h2⟩ : 32 ≤ c.toNat ∧ c.toNat < 127), ih hrest]
      rfl

theorem goQuote_plain (s : GoString) (hp : ∀ c ∈ s, plainChar c) :
    goQuote s = '"' :: s ++ ['"'] := by
  unfold goQuote
  rw [goQuoteChars_plain s hp]

/-- C5: for a buffer created by `DryBuffer` and then driven by any sequence
of operations, the teardown check passes exactly when checks are disabled or
the accumulator is empty; when checks are enabled and something was written
it reports exactly the dry failure message, which (for content `%q` renders
verbatim) contains the accumulated content; the check reads through the
non-counting path, leaving the read counter unchanged; checks are disabled
exactly when `SkipChecks` is among the operations. -/
theorem dry_buffer_teardown (names : List GoString) (ops : List BufOp) :
    ((dryCleanup (applyBufOps (DryBuffer names) ops)).2 = [] ↔
      ((applyBufOps (DryBuffer names) ops).check = false ∨
        (applyBufOps (DryBuffer names) ops).buf = [])) ∧
    ((applyBufOps (DryBuffer names) ops).check = true →
      (applyBufOps (DryBuffer names) ops).buf ≠ [] →
      (dryCleanup (applyBufOps (DryBuffer names) ops)).2 =
        [dryFailMsg (applyBufOps (DryBuffer names) ops).name
          (applyBufOps (DryBuffer names) ops).buf]) ∧
    ((applyBufOps (DryBuffer names) ops).check = true →
      (applyBufOps (DryBuffer names) ops).buf ≠ [] →
      (∀ c ∈ (applyBufOps (DryBuffer names) ops).buf, plainChar c) →
      ∃ pre post, (dryCleanup (applyBufOps (DryBuffer names) ops)).2 =
        [pre ++ (applyBufOps (DryBuffer names) ops).buf ++ post]) ∧
    (dryCleanup (applyBufOps (DryBuffer names) ops)).1.rc =
      (applyBufOps (DryBuffer names) ops).rc ∧
    ((applyBufOps (DryBuffer names) ops).check = false ↔ BufOp.skipChecks ∈ ops) := by
  set tsb := applyBufOps (DryBuffer names) ops with htsb
  have hflag : tsb.check = false ↔ BufOp.skipChecks ∈ ops := by
    rw [htsb, applyBufOps_check]
    simp [DryBuffer, NewTSBuffer]
    cases names <;> simp
  have hmsg : tsb.check = true → tsb.buf ≠ [] →
      (dryCleanup tsb).2 = [dryFailMsg tsb.name tsb.buf] := by
    intro hc hb
    unfold dryCleanup TSBuffer.string
    simp [hc, hb]
  refine ⟨?_, hmsg, ?_, ?_, hflag⟩
  · unfold dryCleanup TSBuffer.string
    rcases hc : tsb.check with _ | _
    · simp [hc]
    · by_cases hb : tsb.buf = [] <;> simp [hc, hb]
  · intro hc hb hp
    refine ⟨"expected ".data ++ tsb.name ++
      "buffer to be empty:\n\twant: \n\thave: ".data ++ ['"'], ['"'], ?_⟩
    rw [hmsg hc hb]
    simp [dryFailMsg, goQuote_plain tsb.buf hp]
  · unfold dryCleanup TSBuffer.string
    rcases hc : tsb.check with _ | _
    · simp [hc]
    · by_cases hb : tsb.buf = [] <;> simp [hc, hb]

/-- Witness for C5: a dry buffer with content `abc` written fails with a
message containing `abc`, and the check leaves the read counter at zero. -/
theorem dry_buffer_teardown_witness :
    (dryCleanup (applyBufOps (DryBuffer []) [BufOp.writeString ['a', 'b', 'c']])).2 =
      [dryFailMsg [] ['a', 'b', 'c']] ∧
    (dryCleanup (applyBufOps (DryBuffer []) [BufOp.writeString ['a', 'b', 'c']])).1.rc = 0 := by
  refine ⟨(dry_buffer_teardown [] [BufOp.writeString ['a', 'b', 'c']]).2.1
    (by decide) (by decide), ?_⟩
  have := (dry_buffer_teardown [] [BufOp.writeString ['a', 'b', 'c']]).2.2.2.1
  rw [this]
  decide

theorem splitFirstEq_eq (s : GoString) :
    splitFirstEq s = if '=' ∈ s then some (specKey s, specVal s) else none := by
  induction s with
  | nil => simp [splitFirstEq]
  | cons c cs ih =>
      by_cases hc : c = '='
      · subst hc
        simp [splitFirstEq, specKey, specVal, List.takeWhile_cons, List.dropWhile_cons]
      · by_cases hmem : '=' ∈ cs
        · simp [splitFirstEq, ih, hc, hmem, specKey, specVal, List.takeWhile_cons,
            List.dropWhile_cons, List.mem_cons, Ne.symm hc]
        · simp [splitFirstEq, ih, hc, hmem, List.mem_cons, Ne.symm hc]

theorem envSplitStep_lookup (m : GoMap GoString) (s key : GoString) :
    mapLookup (envSplitStep m s) key =
      if specValidLine s ∧ specKey s = key then some (specVal s)
      else mapLookup m key := by
  unfold envSplitStep
  rw [splitFirstEq_eq]
  by_cases hm : '=' ∈ s
  · rw [if_pos hm]
    show mapLookup (if specKey s = [] then m else mapSet m (specKey s) (specVal s)) key = _
    by_cases hk : specKey s = []
    · rw [if_pos hk, if_neg (fun hx => hx.1.2 hk)]
    · rw [if_neg hk, mapLookup_mapSet]
      by_cases hkey : specKey s = key
      · rw [if_pos hkey, if_pos ⟨⟨hm, hk⟩, hkey⟩]
      · rw [if_neg hkey, if_neg (fun hx => hkey hx.2)]
  · rw [if_neg hm]
    show mapLookup m key = _
    rw [if_neg (fun hx => hm hx.1.1)]

theorem envSplit_fold_lookup (lines : List GoString) (m : GoMap GoString)
    (key : GoString) :
    mapLookup (lines.foldl envSplitStep m) key =
      match specLastValue lines key with
      | some v => some v
      | none => mapLookup m key := by
  induction lines generalizing m with
  | nil => simp [specLastValue]
  | cons l ls ih =>
      rw [List.foldl_cons, ih]
      unfold specLastValue
      rw [List.reverse_cons, List.find?_append]
      have hfl : List.find? (fun s => decide (specValidLine s) && decide (specKey s = key)) [l]
          = if specValidLine l ∧ specKey l = key then some l else none := by
        by_cases hl : specValidLine l ∧ specKey l = key
        · simp [List.find?_cons, hl.1, hl.2]
        · rw [if_neg hl]
          have hb : (decide (specValidLine l) && decide (specKey l = key)) = false := by
            by_cases h1 : specValidLine l
            · have h2 : ¬ specKey l = key := fun h2 => hl ⟨h1, h2⟩
              simp [h1, h2]
            · simp [h1]
          simp [List.find?_cons, hb]
      cases hfind : ls.reverse.find? (fun s => decide (specValidLine s) && decide (specKey s = key)) with
      | some s => simp [Option.or]
      | none =>
          rw [hfl, envSplitStep_lookup]
          by_cases hl : specValidLine l ∧ specKey l = key
          · rw [if_pos hl, if_pos hl]
            simp [Option.or]
          · rw [if_neg hl, if_neg hl]
            simp [Option.or]

/-- C6: `EnvSplit` maps each key to exactly the value of the last input line
that is kept — a line being kept iff it contains a `'='` and its key
portion (the text before the first `'='`) is non-empty — where the value is
the text after the first `'='`; lines with no `'='` or an empty key are
silently dropped and duplicate keys resolve last-write-wins. -/
theorem envSplit_spec (lines : List GoString) (key : GoString) :
    mapLookup (EnvSplit lines) key = specLastValue lines key := by
  unfold EnvSplit
  rw [envSplit_fold_lookup]
  cases specLastValue lines key <;> simp

theorem envSplit_append_singleton (ls : List GoString) (l : GoString) :
    EnvSplit (ls ++ [l]) = envSplitStep (EnvSplit ls) l := by
  unfold EnvSplit
  rw [List.foldl_append]
  rfl

/-- Every key stored by the parser contains no `'='` and is non-empty. -/
def goodKeys (m : GoMap GoString) : Prop :=
  ∀ p ∈ m, '=' ∉ p.1 ∧ p.1 ≠ []

theorem mem_mapRemove {α : Type} (k : GoString) (m : GoMap α)
    (p : GoString × α) (hp : p ∈ mapRemove k m) : p ∈ m := by
  induction m with
  | nil => exact absurd hp (by simp [mapRemove])
  | cons q m ih =>
      by_cases hq : q.1 = k
      · rw [mapRemove, if_pos hq] at hp
        exact List.mem_cons_of_mem q (ih hp)
      · rw [mapRemove, if_neg hq] at hp
        rcases List.mem_cons.mp hp with hh | hh
        · exact hh ▸ List.mem_cons_self q m
        · exact List.mem_cons_of_mem q (ih hh)

theorem specKey_no_eq (s : GoString) : '=' ∉ specKey s := by
  intro h
  have := List.mem_takeWhile_imp h
  simp at this

theorem goodKeys_envSplitStep (m : GoMap GoString) (s : GoString)
    (hg : goodKeys m) : goodKeys (envSplitStep m s) := by
  unfold envSplitStep
  rw [splitFirstEq_eq]
  by_cases hm : '=' ∈ s
  · rw [if_pos hm]
    show goodKeys (if specKey s = [] then m else mapSet m (specKey s) (specVal s))
    by_cases hk : specKey s = []
    · rw [if_pos hk]; exact hg
    · rw [if_neg hk]
      intro p hp
      rcases List.mem_cons.mp hp with hh | hh
      · rw [hh]
        exact ⟨specKey_no_eq s, hk⟩
      · exact hg p (mem_mapRemove _ _ _ hh)
  · rw [if_neg hm]
    exact hg

theorem goodKeys_fold (lines : List GoString) (m : GoMap GoString)
    (hg : goodKeys m) : goodKeys (lines.foldl envSplitStep m) := by
  induction lines generalizing m with
  | nil => exact hg
  | cons l ls ih => exact ih _ (goodKeys_envSplitStep m l hg)

theorem goodKeys_envSplit (lines : List GoString) : goodKeys (EnvSplit lines) :=
  goodKeys_fold lines [] (by intro p hp; cases hp)

theorem specKey_cons (c : Char) (cs : GoString) :
    specKey (c :: cs) = if c = '=' then [] else c :: specKey cs := by
  unfold specKey
  rw [List.takeWhile_cons]
  by_cases hc : c = '=' <;> simp [hc]

theorem specVal_cons (c : Char) (cs : GoString) :
    specVal (c :: cs) = if c = '=' then cs else specVal cs := by
  unfold specVal
  rw [List.dropWhile_cons]
  by_cases hc : c = '=' <;> simp [hc]

theorem specKey_serialize (k v : GoString) (hk : '=' ∉ k) :
    specKey (k ++ '=' :: v) = k := by
  induction k with
  | nil => simp [specKey_cons]
  | cons c cs ih =>
      have hc : ¬ c = '=' := fun hc => hk (by simp [hc])
      have hcs : '=' ∉ cs := fun hh => hk (List.mem_cons_of_mem c hh)
      rw [List.cons_append, specKey_cons, if_neg hc, ih hcs]

theorem specVal_serialize (k v : GoString) (hk : '=' ∉ k) :
    specVal (k ++ '=' :: v) = v := by
  induction k with
  | nil => simp [specVal_cons]
  | cons c cs ih =>
      have hc : ¬ c = '=' := fun hc => hk (by simp [hc])
      have hcs : '=' ∉ cs := fun hh => hk (List.mem_cons_of_mem c hh)
      rw [List.cons_append, specVal_cons, if_neg hc, ih hcs]

theorem dropWhile_mem_eq (l : GoString) (h : '=' ∈ l) :
    l.dropWhile (fun c => ! decide (c = '=')) =
      '=' :: (l.dropWhile (fun c => ! decide (c = '='))).tail := by
  induction l with
  | nil => cases h
  | cons c cs ih =>
      by_cases hc : c = '='
      · subst hc
        simp [List.dropWhile_cons]
      · have hcs : '=' ∈ cs := by
          rcases List.mem_cons.mp h with hh | hh
          · exact absurd hh.symm hc
          · exact hh
        have hcond : (! decide (c = '=')) = true := by simp [hc]
        rw [List.dropWhile_cons, if_pos hcond]
        exact ih hcs

theorem specValidLine_reconstruct (l : GoString) (hl : specValidLine l) :
    specKey l ++ '=' :: specVal l = l := by
  unfold specKey specVal
  rw [← dropWhile_mem_eq l hl.1]
  exact List.takeWhile_append_dropWhile ..

theorem envAll_mapSet (m : GoMap GoString) (k v : GoString) :
    Env.EnvAll (mapSet m k v) = (k ++ '=' :: v) :: Env.EnvAll (mapRemove k m) := rfl

theorem envAll_mapRemove (m : GoMap GoString) (k : GoString) (hg : goodKeys m) :
    Env.EnvAll (mapRemove k m) =
      (Env.EnvAll m).filter (fun s => ! decide (specKey s = k)) := by
  induction m with
  | nil => rfl
  | cons p m ih =>
      have hp := hg p (List.mem_cons_self p m)
      have hgm : goodKeys m := fun q hq => hg q (List.mem_cons_of_mem p hq)
      by_cases hpk : p.1 = k
      · rw [mapRemove, if_pos hpk, ih hgm]
        have hkey : specKey (p.1 ++ '=' :: p.2) = k := by
          rw [specKey_serialize p.1 p.2 hp.1, hpk]
        simp [Env.EnvAll, List.filter_cons, hkey]
      · rw [mapRemove, if_neg hpk]
        have hkey : ¬ specKey (p.1 ++ '=' :: p.2) = k := by
          rw [specKey_serialize p.1 p.2 hp.1]; exact hpk
        show (p.1 ++ '=' :: p.2) :: Env.EnvAll (mapRemove k m) =
          List.filter _ ((p.1 ++ '=' :: p.2) :: Env.EnvAll m)
        rw [ih hgm, List.filter_cons]
        simp [hkey]

theorem specDedupLWW_append_singleton (ls : List GoString) (l : GoString) :
    specDedupLWW (ls ++ [l]) =
      (specDedupLWW ls).filter (fun s => ! decide (specKey s = specKey l)) ++ [l] := by
  induction ls with
  | nil => simp [specDedupLWW]
  | cons x ls ih =>
      show specDedupLWW (x :: (ls ++ [l])) = _
      unfold specDedupLWW
      rw [List.any_append]
      by_cases hxl : specKey l = specKey x
      · have hone : List.any [l] (fun s => decide (specKey s = specKey x)) = true := by
          simp [hxl]
        rw [hone, Bool.or_true, if_pos rfl, ih]
        by_cases hany : ls.any (fun s => decide (specKey s = specKey x)) = true
        · rw [if_pos hany]
        · rw [if_neg hany]
          have hdropx : (! decide (specKey x = specKey l)) = false := by
            simp [hxl.symm]
          simp [List.filter_cons, hdropx]
      · have hone : List.any [l] (fun s => decide (specKey s = specKey x)) = false := by
          simp [hxl]
        rw [hone, Bool.or_false]
        by_cases hany : ls.any (fun s => decide (specKey s = specKey x)) = true
        · rw [if_pos hany, if_pos hany, ih]
        · rw [if_neg hany, if_neg hany, ih, List.filter_cons]
          have hlx : ¬ specKey x = specKey l := fun hh => hxl hh.symm
          simp [hlx]

/-- C7: parsing a sequence of well-formed `KEY=VALUE` lines and serializing
the store back yields, up to reordering (Go maps are unordered, so both
sides are compared after sorting), exactly the lines that survive key
deduplication with last-write-wins. -/
theorem parse_serialize_lww (lines : List GoString)
    (hval : ∀ s ∈ lines, specValidLine s) :
    List.Perm (Env.EnvAll (EnvSplit lines)) (specDedupLWW lines) := by
  revert hval
  induction lines using List.reverseRecOn with
  | nil => intro _; rfl
  | append_singleton ls l ih =>
      intro hval
      have hl : specValidLine l := hval l (by simp)
      have hls : ∀ s ∈ ls, specValidLine s := fun s hs => hval s (by simp [hs])
      have hstep : envSplitStep (EnvSplit ls) l =
          mapSet (EnvSplit ls) (specKey l) (specVal l) := by
        unfold envSplitStep
        rw [splitFirstEq_eq, if_pos hl.1]
        show (if specKey l = [] then _ else _) = _
        rw [if_neg hl.2]
      rw [envSplit_append_singleton, hstep, envAll_mapSet,
        specValidLine_reconstruct l hl,
        envAll_mapRemove _ _ (goodKeys_envSplit ls),
        specDedupLWW_append_singleton]
      refine List.Perm.trans (List.Perm.cons l ((ih hls).filter _)) ?_
      exact (List.perm_append_singleton l _).symm

/-- Witness for C7: three well-formed lines with a duplicated key serialize
back to the last-write-wins set. -/
theorem parse_serialize_lww_witness :
    (∀ s ∈ [['A', '=', '1'], ['B', '=', '2'], ['A', '=', '3']], specValidLine s) ∧
    List.Perm (Env.EnvAll (EnvSplit [['A', '=', '1'], ['B', '=', '2'], ['A', '=', '3']]))
      (specDedupLWW [['A', '=', '1'], ['B', '=', '2'], ['A', '=', '3']]) :=
  ⟨by decide, parse_serialize_lww [['A', '=', '1'], ['B', '=', '2'], ['A', '=', '3']]
    (by decide)⟩

/-- The zero value `Ring{}`: nil environment, nil metadata, no args, no
name. -/
def zeroRing : Ring α := ⟨none, none, [], []⟩

/-- A construction option is well formed in a heap when a user-supplied
metadata map reference points at an allocated cell (a Go map value is always
either nil or a live map). -/
def optValidB (n : Nat) : RingOption α → Bool
  | .withMeta (some j) => decide (j < n)
  | _ => true

theorem foldOptions_spec {α : Type} (opts : List (RingOption α)) :
    ∀ (h : Heap α) (r : Ring α),
      opts.all (optValidB h.metaCells.length) = true →
      (∀ i, r.env = some i → i < h.envCells.length) →
      (∀ j, r.m = some j → j < h.metaCells.length) →
      ((opts.foldl (fun s o => applyOption s.1 s.2 o) (h, r)).1.metaCells = h.metaCells ∧
        (opts.foldl (fun s o => applyOption s.1 s.2 o) (h, r)).2.name = r.name ∧
        (∀ i, (opts.foldl (fun s o => applyOption s.1 s.2 o) (h, r)).2.env = some i →
          i < (opts.foldl (fun s o => applyOption s.1 s.2 o) (h, r)).1.envCells.length) ∧
        (∀ j, (opts.foldl (fun s o => applyOption s.1 s.2 o) (h, r)).2.m = some j →
          j < (opts.foldl (fun s o => applyOption s.1 s.2 o) (h, r)).1.metaCells.length)) := by
  induction opts with
  | nil => exact fun h r _ h1 h2 => ⟨rfl, rfl, h1, h2⟩
  | cons o opts ih =>
      intro h r hall h1 h2
      rw [List.all_cons, Bool.and_eq_true] at hall
      obtain ⟨hhead, htail⟩ := hall
      rw [List.foldl_cons]
      cases o with
      | withEnv env =>
          refine ih (h.allocEnv (NewEnv env)).1 _ htail ?_ ?_
          · intro i hi
            injection hi with hi
            subst hi
            simp [Heap.allocEnv]
          · exact h2
      | withArgs args => exact ih h _ htail h1 h2
      | withMeta m =>
          refine ih h _ htail h1 ?_
          intro j hj
          cases m with
          | none => cases hj
          | some j0 =>
              injection hj with hj
              subst hj
              exact of_decide_eq_true hhead

theorem attachEnv_spec {α : Type} (osEnviron : List GoString) (s : Heap α × Ring α)
    (henv : ∀ i, s.2.env = some i → i < s.1.envCells.length) :
    (attachEnv osEnviron s).2.name = s.2.name ∧
    (attachEnv osEnviron s).2.m = s.2.m ∧
    (attachEnv osEnviron s).1.metaCells = s.1.metaCells ∧
    (∃ i, (attachEnv osEnviron s).2.env = some i ∧
      i < (attachEnv osEnviron s).1.envCells.length) := by
  unfold attachEnv
  by_cases he : s.2.env = none
  · rw [if_pos he]
    exact ⟨rfl, rfl, rfl, ⟨s.1.envCells.length, rfl, by simp [Heap.allocEnv]⟩⟩
  · rw [if_neg he]
    cases hi : s.2.env with
    | none => exact absurd hi he
    | some i => exact ⟨rfl, rfl, rfl, ⟨i, rfl, henv i hi⟩⟩

theorem attachMeta_spec {α : Type} (s : Heap α × Ring α)
    (hm : ∀ j, s.2.m = some j → j < s.1.metaCells.length) :
    (attachMeta s).2.name = s.2.name ∧
    (attachMeta s).1.envCells = s.1.envCells ∧
    (attachMeta s).2.env = s.2.env ∧
    (∃ j, (attachMeta s).2.m = some j ∧
      j < (attachMeta s).1.metaCells.length) := by
  unfold attachMeta
  by_cases hm2 : s.2.m = none
  · rw [if_pos hm2]
    exact ⟨rfl, rfl, rfl, ⟨s.1.metaCells.length, rfl, by simp [Heap.allocMeta]⟩⟩
  · rw [if_neg hm2]
    cases hj : s.2.m with
    | none => exact absurd hj hm2
    | some j => exact ⟨rfl, rfl, rfl, ⟨j, rfl, hm j hj⟩⟩

theorem isZero_false_of_name {α : Type} (h : Heap α) (r : Ring α)
    (hn : r.name ≠ []) : Ring.IsZero h r = false := by
  unfold Ring.IsZero
  by_cases he : 0 < (h.envCell r.env).length
  · rw [if_pos he]
  · rw [if_neg he]
    simp [hn]

/-- C10: for every option list (whose user-supplied metadata references are
live or nil) and a non-empty ambient program name, the ring built by `New`
carries an allocated (non-nil) environment store and an allocated (non-nil)
metadata map, it never satisfies `IsZero`, and `MetaSet` on it always
operates on a live map and succeeds — unlike on the zero value `Ring{}`,
whose metadata map is nil so that `MetaSet` has no defined result. -/
theorem new_allocates_stores {α : Type} (osName : GoString)
    (osArgs osEnviron : List GoString) (h : Heap α) (opts : List (RingOption α))
    (hn : osName ≠ []) (hopts : opts.all (optValidB h.metaCells.length) = true) :
    (∃ i, (New osName osArgs osEnviron h opts).2.env = some i ∧
      i < (New osName osArgs osEnviron h opts).1.envCells.length) ∧
    (∃ j, (New osName osArgs osEnviron h opts).2.m = some j ∧
      j < (New osName osArgs osEnviron h opts).1.metaCells.length) ∧
    Ring.IsZero (New osName osArgs osEnviron h opts).1
      (New osName osArgs osEnviron h opts).2 = false ∧
    (∀ key value, (Ring.MetaSet (New osName osArgs osEnviron h opts).1
      (New osName osArgs osEnviron h opts).2 key value).isSome = true) ∧
    (∀ (h' : Heap α) key (value : α), Ring.MetaSet h' zeroRing key value = none) := by
  obtain ⟨hmeta1, hname1, henv1, hm1⟩ :=
    foldOptions_spec opts h (defaultRing osName osArgs) hopts
      (fun i hi => by cases hi) (fun j hj => by cases hj)
  obtain ⟨hname2, hm2, hmeta2, henv2⟩ :=
    attachEnv_spec osEnviron
      (opts.foldl (fun s o => applyOption s.1 s.2 o) (h, defaultRing osName osArgs)) henv1
  have hmv2 : ∀ j,
      (attachEnv osEnviron
        (opts.foldl (fun s o => applyOption s.1 s.2 o) (h, defaultRing osName osArgs))).2.m =
        some j →
      j < (attachEnv osEnviron
        (opts.foldl (fun s o => applyOption s.1 s.2 o) (h, defaultRing osName osArgs))).1.metaCells.length := by
    intro j hj
    rw [hm2] at hj
    rw [hmeta2]
    exact hm1 j hj
  obtain ⟨hname3, henvc3, henv3, hm3⟩ :=
    attachMeta_spec
      (attachEnv osEnviron
        (opts.foldl (fun s o => applyOption s.1 s.2 o) (h, defaultRing osName osArgs))) hmv2
  obtain ⟨i, hi, hilt⟩ := henv2
  obtain ⟨j, hj, hjlt⟩ := hm3
  have hnew2 : (New osName osArgs osEnviron h opts).2 =
      (attachMeta (attachEnv osEnviron
        (opts.foldl (fun s o => applyOption s.1 s.2 o) (h, defaultRing osName osArgs)))).2 := rfl
  have hnamef : (New osName osArgs osEnviron h opts).2.name = osName := by
    rw [hnew2, hname3, hname2, hname1]
    rfl
  refine ⟨⟨i, ?_, ?_⟩, ⟨j, hj, hjlt⟩, ?_, ?_, fun h' key value => rfl⟩
  · rw [hnew2, henv3]
    exact hi
  · show i < (attachMeta _).1.envCells.length
    rw [henvc3]
    exact hilt
  · exact isZero_false_of_name _ _ (by rw [hnamef]; exact hn)
  · intro key value
    show (Ring.MetaSet _ (attachMeta _).2 key value).isSome = true
    rw [Ring.MetaSet, hj]
    rfl

/-- Witness for C10: a concrete construction with an empty option list in an
empty heap and program name `p`. -/
theorem new_allocates_stores_witness :
    ((['p'] : GoString) ≠ [] ∧
      List.all ([] : List (RingOption Nat)) (optValidB (0 : Nat)) = true) ∧
    (∃ i, (New ['p'] [] [] (⟨[], []⟩ : Heap Nat) []).2.env = some i ∧
      i < (New ['p'] [] [] (⟨[], []⟩ : Heap Nat) []).1.envCells.length) ∧
    (∃ j, (New ['p'] [] [] (⟨[], []⟩ : Heap Nat) []).2.m = some j ∧
      j < (New ['p'] [] [] (⟨[], []⟩ : Heap Nat) []).1.metaCells.length) ∧
    Ring.IsZero (New ['p'] [] [] (⟨[], []⟩ : Heap Nat) []).1
      (New ['p'] [] [] (⟨[], []⟩ : Heap Nat) []).2 = false ∧
    (∀ key value, (Ring.MetaSet (New ['p'] [] [] (⟨[], []⟩ : Heap Nat) []).1
      (New ['p'] [] [] (⟨[], []⟩ : Heap Nat) []).2 key value).isSome = true) ∧
    (∀ (h' : Heap Nat) key (value : Nat), Ring.MetaSet h' zeroRing key value = none) :=
  ⟨⟨by decide, by decide⟩,
    new_allocates_stores ['p'] [] [] (⟨[], []⟩ : Heap Nat) [] (by decide) (by decide)⟩

end Ctx42
